import Mathlib

/-!
Verification of the tag module (`tag.go`) of golemu: the Tag entity with its
equality/duplicate predicates, the textual record codec (`buildTag`,
`Tag.InString`, `loadTagsFromCSV`), and the report batcher
(`buildTagReportDataStack` with `TagReportDataStack.TotalTagCounts`).

Machine integers (`uint16`, byte, `uint`, `int` lengths) are modelled as `Nat`:
no operation of this module can overflow them on the values the code
constructs, and the PDU comparison is pure ordering. Byte slices are
`List Nat` (each entry a byte value). Fallible Go functions returning
`(T, error)` are modelled as `Option T`.
-/

namespace Golemu

/-- `Tag` of tag.go: one virtual tag record. `PCBits`, `Length`,
`EPCLengthBits` are `uint16` fields, `EPC` a byte slice. -/
structure Tag where
  PCBits : Nat
  Length : Nat
  EPCLengthBits : Nat
  EPC : List Nat
deriving DecidableEq, Repr

/-- `TagInString` of tag.go: the four fields in textual form. -/
structure TagInString where
  PCBits : String
  Length : String
  EPCLengthBits : String
  EPC : String
deriving DecidableEq, Repr

/-- `Tag.IsEqual` of tag.go, line for line: note that the third conjunct of
the source compares `tt.EPCLengthBits` with itself (`tt.EPCLengthBits ==
tt.EPCLengthBits`), which is identically true. -/
def Tag.IsEqual (t tt : Tag) : Bool :=
  t.PCBits == tt.PCBits && t.Length == tt.Length
    && tt.EPCLengthBits == tt.EPCLengthBits && t.EPC == tt.EPC

/-- `Tag.IsDuplicate` of tag.go: compares only the EPC byte slices. -/
def Tag.IsDuplicate (t tt : Tag) : Bool :=
  t.EPC == tt.EPC

/-- A digit character under `strconv.ParseUint` with explicit base `b`
(10 or 16 in this module): its value, or `none` when the character is not a
digit or its value reaches the base. Go accepts `0`-`9`, lowercase and
uppercase letters, and rejects a digit whose value is `>= base`; for bases
up to 16 only `a`-`f`/`A`-`F` can pass that check, which is what this
definition accepts. -/
def digitVal (b : Nat) (c : Char) : Option Nat :=
  if 48 ≤ c.toNat ∧ c.toNat ≤ 57 then
    if c.toNat - 48 < b then some (c.toNat - 48) else none
  else if 97 ≤ c.toNat ∧ c.toNat ≤ 102 then
    if c.toNat - 97 + 10 < b then some (c.toNat - 97 + 10) else none
  else if 65 ≤ c.toNat ∧ c.toNat ≤ 70 then
    if c.toNat - 65 + 10 < b then some (c.toNat - 65 + 10) else none
  else none

/-- Accumulating loop of `strconv.ParseUint`: `acc` is the value of the
digits consumed so far. -/
def parseUintAux (b : Nat) : List Char → Nat → Option Nat
  | [], acc => some acc
  | c :: cs, acc =>
    match digitVal b c with
    | none => none
    | some d => parseUintAux b cs (acc * b + d)

/-- `strconv.ParseUint(s, b, bitSize)`: fails on the empty string, on any
non-digit character, and on a value outside `bitSize` bits (Go reports
`ErrRange` there, an error like any other to the caller). -/
def parseUint (s : String) (b bitSize : Nat) : Option Nat :=
  if s.data.isEmpty then none
  else
    match parseUintAux b s.data 0 with
    | none => none
    | some v => if v < 2 ^ bitSize then some v else none

/-- `hex.DecodeString` on the character list: two hex digits per byte; an
odd-length or non-hex input is an error. -/
def hexDecodeList : List Char → Option (List Nat)
  | [] => some []
  | [_] => none
  | c1 :: c2 :: cs =>
    match digitVal 16 c1 with
    | none => none
    | some d1 =>
      match digitVal 16 c2 with
      | none => none
      | some d2 =>
        match hexDecodeList cs with
        | none => none
        | some bs => some ((d1 * 16 + d2) :: bs)

/-- `hex.DecodeString` of encoding/hex. -/
def hexDecodeString (s : String) : Option (List Nat) :=
  hexDecodeList s.data

/-- The digit characters `0123456789abcdef` used by `strconv.FormatUint`
and `hex.EncodeToString` (both emit lowercase). -/
def digitChar (d : Nat) : Char :=
  if d < 10 then Char.ofNat (48 + d) else Char.ofNat (97 + (d - 10))

/-- Digits of `v` in base `b`, least significant first, computed by the
division loop of `strconv.FormatUint`; `fuel` bounds the recursion and any
`fuel ≥ v` is exact. -/
def natDigitsAux (b : Nat) : Nat → Nat → List Nat
  | _, 0 => []
  | 0, _ + 1 => []
  | fuel + 1, v + 1 => (v + 1) % b :: natDigitsAux b fuel ((v + 1) / b)

/-- `strconv.FormatUint(v, b)`: most significant digit first, lowercase,
and `"0"` for zero. -/
def formatUint (v b : Nat) : String :=
  if v = 0 then "0" else ⟨((natDigitsAux b v v).reverse).map digitChar⟩

/-- The two hex characters `hex.EncodeToString` emits for one byte. -/
def hexByteChars (x : Nat) : List Char :=
  [digitChar (x / 16), digitChar (x % 16)]

/-- `hex.EncodeToString` of encoding/hex (lowercase). -/
def hexEncodeString (bs : List Nat) : String :=
  ⟨(bs.map hexByteChars).flatten⟩

/-- `Tag.InString` of tag.go: PCBits in base 16, Length and EPCLengthBits in
base 10, EPC in lowercase hex. -/
def Tag.InString (t : Tag) : TagInString :=
  { PCBits := formatUint t.PCBits 16
    Length := formatUint t.Length 10
    EPCLengthBits := formatUint t.EPCLengthBits 10
    EPC := hexEncodeString t.EPC }

/-- `buildTag` of tag.go: a record of exactly four fields, parsed as
hex `uint16`, decimal `uint16`, decimal `uint16`, hex bytes; any failure
fails the whole record. -/
def buildTag (record : List String) : Option Tag :=
  match record with
  | [r0, r1, r2, r3] =>
    match parseUint r0 16 16 with
    | none => none
    | some pc =>
      match parseUint r1 10 16 with
      | none => none
      | some length =>
        match parseUint r2 10 16 with
        | none => none
        | some epclen =>
          match hexDecodeString r3 with
          | none => none
          | some epc => some ⟨pc, length, epclen, epc⟩
  | _ => none

/-- `loadTagsFromCSV` of tag.go. The `csv.Reader` (Go standard library,
external to the repository) is modelled as the list of records it yields,
each a list of fields. Modelled from the spec: the repository's `check`
error helper is not among the source files; the spec states that a
malformed record "is reported as a parse failure for that single record and
the record is skipped — parsing continues with subsequent records rather
than aborting the whole input", so `check` is modelled as non-fatal
reporting and the loop keeps only the records `buildTag` accepts. -/
def loadTagsFromCSV : List (List String) → List Tag
  | [] => []
  | record :: rest =>
    match buildTag record with
    | none => loadTagsFromCSV rest
    | some tag => tag :: loadTagsFromCSV rest

/-- `TagReportData` of tag.go: one batch, its accumulated parameter bytes
and how many tags contributed. -/
structure TagReportData where
  Parameter : List Nat
  TagCount : Nat
deriving DecidableEq, Repr

/-- `TagReportDataStack` of tag.go. -/
structure TagReportDataStack where
  Stack : List TagReportData
deriving DecidableEq, Repr

/-- `TagReportDataStack.TotalTagCounts` of tag.go. -/
def TagReportDataStack.TotalTagCounts (trds : TagReportDataStack) : Nat :=
  trds.Stack.foldl (fun ttc trd => ttc + trd.TagCount) 0

/-- The `go-llrp` encoders `buildTagReportDataParameter` calls
(`llrp.EPCData`, `llrp.C1G2PC`, `llrp.TagReportData`): external to the
repository, treated as opaque deterministic byte-sequence producers. -/
structure LLRP where
  EPCData : Nat → Nat → List Nat → List Nat
  C1G2PC : Nat → List Nat
  TagReportData : List Nat → List Nat → List Nat

/-- `buildTagReportDataParameter` of tag.go: EPCData from (Length,
EPCLengthBits, EPC), C1G2PC from PCBits, merged by llrp.TagReportData. -/
def buildTagReportDataParameter (llrp : LLRP) (tag : Tag) : List Nat :=
  llrp.TagReportData (llrp.EPCData tag.Length tag.EPCLengthBits tag.EPC) (llrp.C1G2PC tag.PCBits)

/-- One iteration of the loop of `buildTagReportDataStack`. The accumulator
keeps the stack in reverse, head first: the head is `p.Stack[si]` of the
source, the batch currently being filled. An empty stack opens the first
batch; a full current batch (`len(p.Stack[si].Parameter)+len(param)+100 >
*pdu`) pushes a fresh batch; otherwise `param` is appended to the current
batch and its count incremented. -/
def stackStep (pdu : Nat) (rev : List TagReportData) (param : List Nat) : List TagReportData :=
  match rev with
  | [] => [{ Parameter := param, TagCount := 1 }]
  | cur :: rest =>
    if cur.Parameter.length + param.length + 100 > pdu then
      { Parameter := param, TagCount := 1 } :: cur :: rest
    else
      { Parameter := cur.Parameter ++ param, TagCount := cur.TagCount + 1 } :: rest

/-- `buildTagReportDataStack` of tag.go. The global `*pdu` budget is passed
explicitly; the fold mirrors the source loop, and the final `reverse`
restores source order (the accumulator keeps the current batch at the
head). -/
def buildTagReportDataStack (llrp : LLRP) (pdu : Nat) (tags : List Tag) : TagReportDataStack :=
  ⟨(tags.foldl (fun rev tag => stackStep pdu rev (buildTagReportDataParameter llrp tag)) []).reverse⟩

/-- `getIndexOfTag` of tag.go: the running `index` counter threaded through
the loop. -/
def getIndexOfTagAux (t : Tag) : List Tag → Nat → Int
  | [], _ => -1
  | tag :: rest, index =>
    if tag.IsDuplicate t then index else getIndexOfTagAux t rest (index + 1)

/-- `getIndexOfTag` of tag.go: first index whose tag `IsDuplicate`-matches
`t`, else `-1`. -/
def getIndexOfTag (tags : List Tag) (t : Tag) : Int :=
  getIndexOfTagAux t tags 0

/-- A concrete external encoder whose parameters are 20 bytes per tag,
used to instantiate the batcher theorems on concrete inputs. -/
def llrp20 : LLRP :=
  { EPCData := fun _ _ _ => List.replicate 20 0
    C1G2PC := fun _ => []
    TagReportData := fun a b => a ++ b }

/-- A concrete tag for instantiating theorems. -/
def tag0 : Tag :=
  { PCBits := 0, Length := 0, EPCLengthBits := 0, EPC := [1, 2, 3] }

/-- A numeral string with no redundant leading zero: a single character, or
a first character other than `0`. A canonical numeral satisfies this. -/
def noLeadingZero (s : String) : Prop :=
  s.data.length = 1 ∨ s.data.head? ≠ some '0'

/-- Lowercase normalization of a string, character by character: the
"hex-case normalization" under which the round-trip claim compares
strings. -/
def lowerStr (s : String) : String :=
  ⟨s.data.map Char.toLower⟩

/-! ## Theorems -/

/-- One step of the batcher fold appends `param` at the end of the
concatenated byte stream, whichever branch is taken. -/
theorem stackStep_concat (pdu : Nat) (acc : List TagReportData) (param : List Nat) :
    ((stackStep pdu acc param).reverse.map TagReportData.Parameter).flatten
      = (acc.reverse.map TagReportData.Parameter).flatten ++ param := by
  cases acc with
  | nil => simp [stackStep]
  | cons cur rest =>
    by_cases hgt : cur.Parameter.length + param.length + 100 > pdu
    · simp [stackStep, hgt]
    · simp [stackStep, hgt]

/-- The batcher fold concatenates all parameters in order after any
accumulator contents. -/
theorem foldl_stackStep_concat (pdu : Nat) (params : List (List Nat)) :
    ∀ acc : List TagReportData,
      ((params.foldl (stackStep pdu) acc).reverse.map TagReportData.Parameter).flatten
        = (acc.reverse.map TagReportData.Parameter).flatten ++ params.flatten := by
  induction params with
  | nil => intro acc; simp
  | cons p ps ih =>
    intro acc
    rw [List.foldl_cons, ih, stackStep_concat]
    simp

/-- The batcher is the fold of `stackStep` over the encoded parameters. -/
theorem buildTagReportDataStack_eq_foldl (llrp : LLRP) (pdu : Nat) (tags : List Tag) :
    buildTagReportDataStack llrp pdu tags
      = ⟨((tags.map (buildTagReportDataParameter llrp)).foldl (stackStep pdu) []).reverse⟩ := by
  rw [buildTagReportDataStack, List.foldl_map]

/-- One step of the batcher fold adds exactly one to the total tag count. -/
theorem stackStep_counts (pdu : Nat) (acc : List TagReportData) (param : List Nat) :
    ((stackStep pdu acc param).map TagReportData.TagCount).sum
      = ((acc.map TagReportData.TagCount).sum) + 1 := by
  cases acc with
  | nil => simp [stackStep]
  | cons cur rest =>
    by_cases hgt : cur.Parameter.length + param.length + 100 > pdu
    · simp only [stackStep, if_pos hgt, List.map_cons, List.sum_cons]
      omega
    · simp only [stackStep, if_neg hgt, List.map_cons, List.sum_cons]
      omega

/-- The batcher fold adds one tag count per parameter folded in. -/
theorem foldl_stackStep_counts (pdu : Nat) (params : List (List Nat)) :
    ∀ acc : List TagReportData,
      ((params.foldl (stackStep pdu) acc).map TagReportData.TagCount).sum
        = ((acc.map TagReportData.TagCount).sum) + params.length := by
  induction params with
  | nil => intro acc; simp
  | cons p ps ih =>
    intro acc
    rw [List.foldl_cons, ih, stackStep_counts]
    simp only [List.length_cons]
    omega

/-- The running `ttc` accumulator of `TotalTagCounts` sums the counts. -/
theorem foldl_add_tagCount (l : List TagReportData) :
    ∀ n : Nat, l.foldl (fun ttc trd => ttc + trd.TagCount) n
      = n + (l.map TagReportData.TagCount).sum := by
  induction l with
  | nil => intro n; simp
  | cons x xs ih =>
    intro n
    rw [List.foldl_cons, ih]
    simp only [List.map_cons, List.sum_cons]
    omega

/-- `TotalTagCounts` is the sum of the `TagCount` fields. -/
theorem totalTagCounts_eq_sum (trds : TagReportDataStack) :
    trds.TotalTagCounts = (trds.Stack.map TagReportData.TagCount).sum := by
  rw [TagReportDataStack.TotalTagCounts, foldl_add_tagCount]
  omega

/-- One step of the batcher fold preserves the budget invariant: a batch
over the budget can only be a fresh single-tag batch. -/
theorem stackStep_budget (pdu : Nat) (acc : List TagReportData) (param : List Nat)
    (h : ∀ trd ∈ acc, trd.Parameter.length + 100 ≤ pdu ∨ trd.TagCount = 1) :
    ∀ trd ∈ stackStep pdu acc param,
      trd.Parameter.length + 100 ≤ pdu ∨ trd.TagCount = 1 := by
  cases acc with
  | nil =>
    intro trd htrd
    simp only [stackStep, List.mem_singleton] at htrd
    subst htrd
    exact Or.inr rfl
  | cons cur rest =>
    by_cases hgt : cur.Parameter.length + param.length + 100 > pdu
    · intro trd htrd
      simp only [stackStep, if_pos hgt, List.mem_cons] at htrd
      rcases htrd with h1 | h2 | h3
      · subst h1; exact Or.inr rfl
      · rw [h2]; exact h cur (List.mem_cons_self cur rest)
      · exact h trd (List.mem_cons_of_mem cur h3)
    · intro trd htrd
      simp only [stackStep, if_neg hgt, List.mem_cons] at htrd
      rcases htrd with h1 | h2
      · subst h1
        simp only [List.length_append]
        omega
      · exact h trd (List.mem_cons_of_mem cur h2)

/-- The batcher fold preserves the budget invariant. -/
theorem foldl_stackStep_budget (pdu : Nat) (params : List (List Nat)) :
    ∀ acc : List TagReportData,
      (∀ trd ∈ acc, trd.Parameter.length + 100 ≤ pdu ∨ trd.TagCount = 1) →
      ∀ trd ∈ params.foldl (stackStep pdu) acc,
        trd.Parameter.length + 100 ≤ pdu ∨ trd.TagCount = 1 := by
  induction params with
  | nil => intro acc h; simpa using h
  | cons p ps ih =>
    intro acc h
    rw [List.foldl_cons]
    exact ih _ (stackStep_budget pdu acc p h)

/-- One step of the batcher fold keeps every count at least one. -/
theorem stackStep_count_pos (pdu : Nat) (acc : List TagReportData) (param : List Nat)
    (h : ∀ trd ∈ acc, 1 ≤ trd.TagCount) :
    ∀ trd ∈ stackStep pdu acc param, 1 ≤ trd.TagCount := by
  cases acc with
  | nil =>
    intro trd htrd
    simp only [stackStep, List.mem_singleton] at htrd
    subst htrd
    exact Nat.le_refl 1
  | cons cur rest =>
    by_cases hgt : cur.Parameter.length + param.length + 100 > pdu
    · intro trd htrd
      simp only [stackStep, if_pos hgt, List.mem_cons] at htrd
      rcases htrd with h1 | h2 | h3
      · subst h1; exact Nat.le_refl 1
      · rw [h2]; exact h cur (List.mem_cons_self cur rest)
      · exact h trd (List.mem_cons_of_mem cur h3)
    · intro trd htrd
      simp only [stackStep, if_neg hgt, List.mem_cons] at htrd
      rcases htrd with h1 | h2
      · subst h1; exact Nat.le_add_left 1 cur.TagCount
      · exact h trd (List.mem_cons_of_mem cur h2)

/-- The batcher fold keeps every count at least one. -/
theorem foldl_stackStep_count_pos (pdu : Nat) (params : List (List Nat)) :
    ∀ acc : List TagReportData,
      (∀ trd ∈ acc, 1 ≤ trd.TagCount) →
      ∀ trd ∈ params.foldl (stackStep pdu) acc, 1 ≤ trd.TagCount := by
  induction params with
  | nil => intro acc h; simpa using h
  | cons p ps ih =>
    intro acc h
    rw [List.foldl_cons]
    exact ih _ (stackStep_count_pos pdu acc p h)

/-- One step of the batcher fold grows the stack by at most one batch. -/
theorem stackStep_length (pdu : Nat) (acc : List TagReportData) (param : List Nat) :
    (stackStep pdu acc param).length ≤ acc.length + 1 := by
  cases acc with
  | nil => simp [stackStep]
  | cons cur rest =>
    by_cases hgt : cur.Parameter.length + param.length + 100 > pdu
    · simp [stackStep, hgt]
    · simp [stackStep, hgt]

/-- The batcher fold adds at most one batch per parameter. -/
theorem foldl_stackStep_length (pdu : Nat) (params : List (List Nat)) :
    ∀ acc : List TagReportData,
      (params.foldl (stackStep pdu) acc).length ≤ acc.length + params.length := by
  induction params with
  | nil => intro acc; simp
  | cons p ps ih =>
    intro acc
    rw [List.foldl_cons]
    calc (ps.foldl (stackStep pdu) (stackStep pdu acc p)).length
        ≤ (stackStep pdu acc p).length + ps.length := ih _
      _ ≤ (acc.length + 1) + ps.length :=
          Nat.add_le_add_right (stackStep_length pdu acc p) ps.length
      _ = acc.length + (p :: ps).length := by simp; omega

/-- Claim C2: every batch the batcher produces fits the budget once the
100-byte framing overhead is added, except possibly a batch holding exactly
one tag whose single parameter alone already exceeds the budget. -/
theorem buildTagReportDataStack_budget (llrp : LLRP) (pdu : Nat) (tags : List Tag)
    (_hpdu : 0 < pdu) :
    ∀ trd ∈ (buildTagReportDataStack llrp pdu tags).Stack,
      trd.Parameter.length + 100 ≤ pdu
        ∨ (trd.TagCount = 1 ∧ pdu < trd.Parameter.length + 100) := by
  intro trd htrd
  rw [buildTagReportDataStack_eq_foldl] at htrd
  simp only [List.mem_reverse] at htrd
  have hinv := foldl_stackStep_budget pdu (tags.map (buildTagReportDataParameter llrp)) []
    (by intro trd htrd; simp at htrd) trd htrd
  rcases hinv with h | h
  · exact Or.inl h
  · by_cases hle : trd.Parameter.length + 100 ≤ pdu
    · exact Or.inl hle
    · exact Or.inr ⟨h, by omega⟩

/-- Witness for claim C2 at a concrete encoder, budget and tag list. -/
theorem buildTagReportDataStack_budget_witness :
    ({ Parameter := List.replicate 20 0, TagCount := 1 } : TagReportData).Parameter.length + 100 ≤ 150
      ∨ (({ Parameter := List.replicate 20 0, TagCount := 1 } : TagReportData).TagCount = 1
          ∧ 150 < ({ Parameter := List.replicate 20 0, TagCount := 1 } : TagReportData).Parameter.length + 100) :=
  buildTagReportDataStack_budget llrp20 150 [tag0] (by decide)
    { Parameter := List.replicate 20 0, TagCount := 1 } (by decide)

/-- Claim C3: concatenating all batches' buffers in stack order reproduces
the byte stream of encoding every input tag in order. -/
theorem buildTagReportDataStack_order_preserving (llrp : LLRP) (pdu : Nat) (tags : List Tag) :
    ((buildTagReportDataStack llrp pdu tags).Stack.map TagReportData.Parameter).flatten
      = (tags.map (buildTagReportDataParameter llrp)).flatten := by
  rw [buildTagReportDataStack_eq_foldl]
  have h := foldl_stackStep_concat pdu (tags.map (buildTagReportDataParameter llrp)) []
  simpa using h

/-- Claim C4: the total tag count of the produced stack equals the number
of input tags. -/
theorem buildTagReportDataStack_total (llrp : LLRP) (pdu : Nat) (tags : List Tag) :
    (buildTagReportDataStack llrp pdu tags).TotalTagCounts = tags.length := by
  rw [buildTagReportDataStack_eq_foldl, totalTagCounts_eq_sum]
  simp only [List.map_reverse, List.sum_reverse]
  rw [foldl_stackStep_counts]
  simp

/-- Claim C5: with budget 150 and three tags of 20-byte parameters, the
batcher builds two batches with tag counts [2, 1] and total 3. -/
theorem buildTagReportDataStack_scenario (llrp : LLRP) (t1 t2 t3 : Tag)
    (h1 : (buildTagReportDataParameter llrp t1).length = 20)
    (h2 : (buildTagReportDataParameter llrp t2).length = 20)
    (h3 : (buildTagReportDataParameter llrp t3).length = 20) :
    ((buildTagReportDataStack llrp 150 [t1, t2, t3]).Stack.map TagReportData.TagCount) = [2, 1]
      ∧ (buildTagReportDataStack llrp 150 [t1, t2, t3]).TotalTagCounts = 3 := by
  have hmap : ((buildTagReportDataStack llrp 150 [t1, t2, t3]).Stack.map TagReportData.TagCount)
      = [2, 1] := by
    simp [buildTagReportDataStack, stackStep, h1, h2, h3, List.length_append]
  refine ⟨hmap, ?_⟩
  rw [totalTagCounts_eq_sum, hmap]
  rfl

/-- Witness for claim C5 at a concrete encoder and concrete tags. -/
theorem buildTagReportDataStack_scenario_witness :
    ((buildTagReportDataStack llrp20 150 [tag0, tag0, tag0]).Stack.map TagReportData.TagCount) = [2, 1]
      ∧ (buildTagReportDataStack llrp20 150 [tag0, tag0, tag0]).TotalTagCounts = 3 :=
  buildTagReportDataStack_scenario llrp20 tag0 tag0 tag0 (by decide) (by decide) (by decide)

/-- Claim C10: no produced batch is empty (every `TagCount` is at least
one), the number of batches never exceeds the number of input tags, and an
empty input yields an empty stack. -/
theorem buildTagReportDataStack_no_empty_batch (llrp : LLRP) (pdu : Nat) (tags : List Tag) :
    (∀ trd ∈ (buildTagReportDataStack llrp pdu tags).Stack, 1 ≤ trd.TagCount)
      ∧ (buildTagReportDataStack llrp pdu tags).Stack.length ≤ tags.length
      ∧ (buildTagReportDataStack llrp pdu []).Stack = [] := by
  refine ⟨?_, ?_, rfl⟩
  · intro trd htrd
    rw [buildTagReportDataStack_eq_foldl] at htrd
    simp only [List.mem_reverse] at htrd
    exact foldl_stackStep_count_pos pdu (tags.map (buildTagReportDataParameter llrp)) []
      (by intro trd htrd; simp at htrd) trd htrd
  · rw [buildTagReportDataStack_eq_foldl]
    simp only [List.length_reverse]
    have h := foldl_stackStep_length pdu (tags.map (buildTagReportDataParameter llrp)) []
    simpa using h

/-- `getIndexOfTagAux` returns -1 when no element matches. -/
theorem getIndexOfTagAux_none (t : Tag) :
    ∀ (tags : List Tag) (n : Nat), (∀ tag ∈ tags, tag.IsDuplicate t = false) →
      getIndexOfTagAux t tags n = -1 := by
  intro tags
  induction tags with
  | nil => intro n _; rfl
  | cons a rest ih =>
    intro n h
    have ha : a.IsDuplicate t = false := h a (List.mem_cons_self a rest)
    rw [getIndexOfTagAux, if_neg (by simp [ha])]
    exact ih (n + 1) fun tag htag => h tag (List.mem_cons_of_mem a htag)

/-- `getIndexOfTagAux` started at `n` returns `n + i` when `i` is the first
matching position. -/
theorem getIndexOfTagAux_first (t : Tag) :
    ∀ (tags : List Tag) (i n : Nat) (hi : i < tags.length),
      (tags.get ⟨i, hi⟩).IsDuplicate t = true →
      (∀ (j : Nat) (hj : j < i), (tags.get ⟨j, Nat.lt_trans hj hi⟩).IsDuplicate t = false) →
      getIndexOfTagAux t tags n = ((n + i : Nat) : Int) := by
  intro tags
  induction tags with
  | nil => intro i n hi; exact absurd hi (by simp)
  | cons a rest ih =>
    intro i n hi hmatch hbefore
    cases i with
    | zero =>
      have ha : a.IsDuplicate t = true := hmatch
      rw [getIndexOfTagAux, if_pos ha]
      simp
    | succ i' =>
      have ha : a.IsDuplicate t = false := hbefore 0 (Nat.succ_pos i')
      rw [getIndexOfTagAux, if_neg (by simp [ha])]
      have hstep := ih i' (n + 1) (by simpa using hi) (by simpa using hmatch)
        (fun j hj => by simpa using hbefore (j + 1) (Nat.succ_lt_succ hj))
      rw [hstep]
      congr 1
      omega

/-- Claim C9: `getIndexOfTag` returns -1 exactly when no element matches
(in particular on the empty list), and returns `i` whenever position `i`
matches and every earlier position does not. -/
theorem getIndexOfTag_spec (tags : List Tag) (t : Tag) :
    ((∀ tag ∈ tags, tag.IsDuplicate t = false) → getIndexOfTag tags t = -1)
      ∧ (∀ (i : Nat) (hi : i < tags.length),
          (tags.get ⟨i, hi⟩).IsDuplicate t = true →
          (∀ (j : Nat) (hj : j < i), (tags.get ⟨j, Nat.lt_trans hj hi⟩).IsDuplicate t = false) →
          getIndexOfTag tags t = (i : Int)) := by
  constructor
  · exact getIndexOfTagAux_none t tags 0
  · intro i hi hm hb
    have h := getIndexOfTagAux_first t tags i 0 hi hm hb
    simpa using h

/-- Claim C1: `IsEqual` was specified to hold iff all four fields agree, but
the source (tag.go line 34) compares `tt.EPCLengthBits` against itself:
two tags that differ only in `EPCLengthBits` are reported equal. -/
theorem isEqual_ignores_epcLengthBits :
    Tag.IsEqual ⟨0, 0, 0, []⟩ ⟨0, 0, 1, []⟩ = true
      ∧ (⟨0, 0, 0, []⟩ : Tag).EPCLengthBits ≠ (⟨0, 0, 1, []⟩ : Tag).EPCLengthBits := by
  decide

/-- Claim C8: `IsDuplicate` is reflexive, symmetric, holds for byte-equal
EPCs regardless of the other fields, is implied by `IsEqual`, and is
strictly weaker than `IsEqual`. -/
theorem isDuplicate_equivalence_properties :
    (∀ t : Tag, t.IsDuplicate t = true)
      ∧ (∀ t u : Tag, t.IsDuplicate u = u.IsDuplicate t)
      ∧ (∀ t u : Tag, t.EPC = u.EPC → t.IsDuplicate u = true)
      ∧ (∀ t u : Tag, t.IsEqual u = true → t.IsDuplicate u = true)
      ∧ (∃ t u : Tag, t.IsDuplicate u = true ∧ t.IsEqual u = false) := by
  refine ⟨fun t => ?_, fun t u => ?_, fun t u h => ?_, fun t u h => ?_, ?_⟩
  · simp [Tag.IsDuplicate]
  · by_cases h : t.EPC = u.EPC
    · simp [Tag.IsDuplicate, h]
    · have h' : u.EPC ≠ t.EPC := fun he => h he.symm
      simp [Tag.IsDuplicate, h, h']
  · simp [Tag.IsDuplicate, h]
  · simp only [Tag.IsEqual, Bool.and_eq_true, beq_iff_eq] at h
    simp [Tag.IsDuplicate, h.2]
  · exact ⟨⟨0, 0, 0, []⟩, ⟨1, 0, 0, []⟩, by decide, by decide⟩

/-- Claim C7: a malformed record is skipped and reading continues. The
two-field record ["1A", "10"] fails `buildTag`; a three-record input whose
middle record is malformed yields exactly the two well-formed tags, with no
fatal error (the read is total in the model). -/
theorem loadTagsFromCSV_skips_malformed (good1 bad good3 : List String) (t1 t3 : Tag)
    (hg1 : buildTag good1 = some t1) (hbad : buildTag bad = none)
    (hg3 : buildTag good3 = some t3) :
    buildTag ["1A", "10"] = none
      ∧ loadTagsFromCSV [good1, bad, good3] = [t1, t3]
      ∧ (loadTagsFromCSV [good1, bad, good3]).length = 2 := by
  have hload : loadTagsFromCSV [good1, bad, good3] = [t1, t3] := by
    rw [loadTagsFromCSV, hg1, loadTagsFromCSV, hbad, loadTagsFromCSV, hg3, loadTagsFromCSV]
  exact ⟨rfl, hload, by rw [hload]; rfl⟩

/-- Witness for claim C7 at a concrete three-record input. -/
theorem loadTagsFromCSV_skips_malformed_witness :
    buildTag ["1A", "10"] = none
      ∧ loadTagsFromCSV [["1a", "1", "1", "aa"], ["1A", "10"], ["3000", "2", "16", "00ff"]]
          = [⟨26, 1, 1, [170]⟩, ⟨12288, 2, 16, [0, 255]⟩]
      ∧ (loadTagsFromCSV [["1a", "1", "1", "aa"], ["1A", "10"], ["3000", "2", "16", "00ff"]]).length
          = 2 :=
  loadTagsFromCSV_skips_malformed ["1a", "1", "1", "aa"] ["1A", "10"] ["3000", "2", "16", "00ff"]
    ⟨26, 1, 1, [170]⟩ ⟨12288, 2, 16, [0, 255]⟩ (by decide) (by decide) (by decide)

/-- A digit value accepted for base `b` is below `b`. -/
theorem digitVal_lt_base {b : Nat} {c : Char} {d : Nat} (h : digitVal b c = some d) :
    d < b := by
  unfold digitVal at h
  split_ifs at h with h1 h2 h3 h4 h5 h6 <;> simp_all

/-- Printing back an accepted digit gives the lowercase form of the
original digit character. -/
theorem digitChar_eq_toLower {b : Nat} {c : Char} {d : Nat} (h : digitVal b c = some d) :
    digitChar d = c.toLower := by
  unfold digitVal at h
  split_ifs at h with h1 h2 h3 h4 h5 h6 <;> try exact Option.noConfusion h
  · obtain rfl : c.toNat - 48 = d := Option.some.inj h
    rw [digitChar, if_pos (by omega)]
    have he : 48 + (c.toNat - 48) = c.toNat := by omega
    rw [he, Char.ofNat_toNat]
    simp only [Char.toLower]
    rw [if_neg (by omega)]
  · obtain rfl : c.toNat - 97 + 10 = d := Option.some.inj h
    rw [digitChar, if_neg (by omega)]
    have he : 97 + (c.toNat - 97 + 10 - 10) = c.toNat := by omega
    rw [he, Char.ofNat_toNat]
    simp only [Char.toLower]
    rw [if_neg (by omega)]
  · obtain rfl : c.toNat - 65 + 10 = d := Option.some.inj h
    rw [digitChar, if_neg (by omega)]
    simp only [Char.toLower]
    rw [if_pos (by omega)]
    have he : 97 + (c.toNat - 65 + 10 - 10) = c.toNat + 32 := by omega
    rw [he]

/-- The only character parsing to digit value zero is `0` itself. -/
theorem digitVal_zero_char {b : Nat} {c : Char} (h : digitVal b c = some 0) :
    c = '0' := by
  unfold digitVal at h
  split_ifs at h with h1 h2 h3 h4 h5 h6 <;> try exact Option.noConfusion h
  · have hz := Option.some.inj h
    have hc : c.toNat = 48 := by omega
    calc c = Char.ofNat c.toNat := (Char.ofNat_toNat c).symm
      _ = Char.ofNat 48 := by rw [hc]
      _ = '0' := by decide
  · have hz := Option.some.inj h
    omega
  · have hz := Option.some.inj h
    omega

/-- A base-10 digit character is reproduced exactly by `digitChar`. -/
theorem digitVal_ten_char {c : Char} {d : Nat} (h : digitVal 10 c = some d) :
    digitChar d = c := by
  unfold digitVal at h
  split_ifs at h with h1 h2 h3 h4 h5 h6 <;> try exact Option.noConfusion h
  · obtain rfl : c.toNat - 48 = d := Option.some.inj h
    rw [digitChar, if_pos (by omega)]
    have he : 48 + (c.toNat - 48) = c.toNat := by omega
    rw [he, Char.ofNat_toNat]
  · exact absurd h4 (by omega)
  · exact absurd h6 (by omega)

/-- The accumulating parse loop succeeds exactly on digit strings, and its
value is the base-`b` fold of the digit values over the accumulator. -/
theorem parseUintAux_digits {b : Nat} :
    ∀ (cs : List Char) (acc v : Nat), parseUintAux b cs acc = some v →
      ∃ ds : List Nat, List.Forall₂ (fun c d => digitVal b c = some d) cs ds
        ∧ v = ds.foldl (fun a d => a * b + d) acc := by
  intro cs
  induction cs with
  | nil =>
    intro acc v h
    exact ⟨[], List.Forall₂.nil, (Option.some.inj h).symm⟩
  | cons c cs ih =>
    intro acc v h
    rw [parseUintAux] at h
    cases hdv : digitVal b c with
    | none => rw [hdv] at h; exact Option.noConfusion h
    | some d =>
      rw [hdv] at h
      obtain ⟨ds, hf, hv⟩ := ih (acc * b + d) v h
      exact ⟨d :: ds, List.Forall₂.cons hdv hf, by simpa using hv⟩

/-- The base-`b` fold of a digit list is `Nat.ofDigits` of its reversal
below the accumulator. -/
theorem foldl_mul_add_eq_ofDigits (b : Nat) :
    ∀ (ds : List Nat) (a : Nat),
      ds.foldl (fun x d => x * b + d) a = Nat.ofDigits b (ds.reverse ++ [a]) := by
  intro ds
  induction ds with
  | nil => intro a; simp
  | cons d ds ih =>
    intro a
    rw [List.foldl_cons, ih]
    simp only [List.reverse_cons, List.append_assoc, List.singleton_append]
    rw [Nat.ofDigits_append, Nat.ofDigits_append]
    simp only [Nat.ofDigits_cons, Nat.ofDigits_nil, Nat.ofDigits_singleton]
    ring

/-- What a successful `parseUint` tells about the string and the value. -/
theorem parseUint_eq_some {s : String} {b bitSize v : Nat}
    (h : parseUint s b bitSize = some v) :
    s.data ≠ [] ∧ ∃ ds : List Nat,
      List.Forall₂ (fun c d => digitVal b c = some d) s.data ds
        ∧ v = Nat.ofDigits b ds.reverse ∧ v < 2 ^ bitSize := by
  unfold parseUint at h
  split_ifs at h with hemp
  cases haux : parseUintAux b s.data 0 with
  | none => simp only [haux] at h; exact Option.noConfusion h
  | some w =>
    simp only [haux] at h
    split_ifs at h with hrange
    obtain rfl : w = v := Option.some.inj h
    obtain ⟨ds, hf, hv⟩ := parseUintAux_digits s.data 0 w haux
    refine ⟨by simpa [List.isEmpty_iff] using hemp, ds, hf, ?_, hrange⟩
    rw [hv, foldl_mul_add_eq_ofDigits, Nat.ofDigits_append]
    simp

/-- All digit values of a parsed digit string are below the base. -/
theorem forall₂_digits_lt {b : Nat} {cs : List Char} {ds : List Nat}
    (h : List.Forall₂ (fun c d => digitVal b c = some d) cs ds) :
    ∀ d ∈ ds, d < b := by
  induction h with
  | nil => intro d hd; exact absurd hd (by simp)
  | cons hcd _ ih =>
    intro d hd
    rcases List.mem_cons.mp hd with rfl | hmem
    · exact digitVal_lt_base hcd
    · exact ih d hmem

/-- Printing the digit values of a parsed string reproduces its lowercase
form. -/
theorem forall₂_digits_map_toLower {b : Nat} {cs : List Char} {ds : List Nat}
    (h : List.Forall₂ (fun c d => digitVal b c = some d) cs ds) :
    ds.map digitChar = cs.map Char.toLower := by
  induction h with
  | nil => rfl
  | cons hcd _ ih => simp only [List.map_cons, ih, digitChar_eq_toLower hcd]

/-- Printing the digit values of a parsed base-10 string reproduces it
exactly. -/
theorem forall₂_digits_ten_id {cs : List Char} {ds : List Nat}
    (h : List.Forall₂ (fun c d => digitVal 10 c = some d) cs ds) :
    ds.map digitChar = cs := by
  induction h with
  | nil => rfl
  | cons hcd _ ih => simp only [List.map_cons, ih, digitVal_ten_char hcd]

/-- The fuelled digit loop agrees with `Nat.digits` whenever the fuel
covers the value. -/
theorem natDigitsAux_eq_digits {b : Nat} (hb : 1 < b) :
    ∀ (fuel v : Nat), v ≤ fuel → natDigitsAux b fuel v = Nat.digits b v := by
  intro fuel
  induction fuel with
  | zero =>
    intro v hv
    obtain rfl : v = 0 := Nat.le_zero.mp hv
    simp [natDigitsAux]
  | succ fuel ih =>
    intro v hv
    cases v with
    | zero => simp [natDigitsAux]
    | succ w =>
      rw [natDigitsAux]
      have hdiv : (w + 1) / b ≤ fuel := by
        have hlt := Nat.div_lt_self (Nat.succ_pos w) hb
        simp only [Nat.succ_eq_add_one] at hlt
        omega
      rw [ih _ hdiv]
      exact (Nat.digits_def' hb (Nat.succ_pos w)).symm

/-- Parse-then-print round trip for numerals: a string `parseUint` accepts
with no redundant leading zero is reproduced by `formatUint`, up to
lowercase normalization. -/
theorem formatUint_of_parseUint {s : String} {b bitSize v : Nat} (hb : 1 < b)
    (h : parseUint s b bitSize = some v) (hnlz : noLeadingZero s) :
    formatUint v b = lowerStr s := by
  obtain ⟨hne, ds, hf, hv, _⟩ := parseUint_eq_some h
  cases hcs : s.data with
  | nil => exact absurd hcs hne
  | cons c0 cs' =>
    rw [hcs] at hf
    obtain ⟨d0, ds', hcd, hf', rfl⟩ := List.forall₂_cons_left_iff.mp hf
    by_cases hd0 : d0 = 0
    · subst hd0
      have hc0 : c0 = '0' := digitVal_zero_char hcd
      have hone : cs' = [] := by
        rcases hnlz with hlen | hhead
        · rw [hcs] at hlen
          simpa using hlen
        · rw [hcs] at hhead
          simp only [List.head?_cons, hc0] at hhead
          exact absurd rfl hhead
      subst hone
      have hds' : ds' = [] := by
        cases hf'
        rfl
      subst hds'
      have hv0 : v = 0 := by
        rw [hv]
        simp
      rw [formatUint, if_pos hv0, lowerStr, hcs, hc0]
      rfl
    · have hlt : ∀ x ∈ (d0 :: ds').reverse, x < b := by
        intro x hx
        exact forall₂_digits_lt hf x (List.mem_reverse.mp hx)
      have hlast : ∀ hL : (d0 :: ds').reverse ≠ [], ((d0 :: ds').reverse).getLast hL ≠ 0 := by
        intro hL
        simp only [List.reverse_cons]
        have hg : (ds'.reverse ++ [d0]).getLast (by simp) = d0 := List.getLast_concat ds'.reverse
        rw [hg]
        exact hd0
      have hdig : Nat.digits b v = (d0 :: ds').reverse := by
        rw [hv]
        exact Nat.digits_ofDigits b hb _ hlt hlast
      have hvne : v ≠ 0 := by
        intro hv0
        rw [hv0, Nat.digits_zero] at hdig
        exact absurd hdig.symm (by simp)
      rw [formatUint, if_neg hvne, natDigitsAux_eq_digits hb v v (Nat.le_refl v), hdig,
        List.reverse_reverse, forall₂_digits_map_toLower hf, lowerStr, hcs]

/-- A string `parseUint` accepts in base 10 is already lowercase. -/
theorem lowerStr_of_parseUint_ten {s : String} {bitSize v : Nat}
    (h : parseUint s 10 bitSize = some v) : lowerStr s = s := by
  obtain ⟨hne, ds, hf, hv, _⟩ := parseUint_eq_some h
  rw [lowerStr, ← forall₂_digits_map_toLower hf, forall₂_digits_ten_id hf]

/-- Unfolding a successful two-character step of `hexDecodeList`. -/
theorem hexDecodeList_cons_cons {c1 c2 : Char} {cs : List Char} {bs : List Nat}
    (h : hexDecodeList (c1 :: c2 :: cs) = some bs) :
    ∃ d1 d2 bs', digitVal 16 c1 = some d1 ∧ digitVal 16 c2 = some d2
      ∧ hexDecodeList cs = some bs' ∧ bs = (d1 * 16 + d2) :: bs' := by
  rw [hexDecodeList] at h
  cases h1 : digitVal 16 c1 with
  | none => rw [h1] at h; exact Option.noConfusion h
  | some d1 =>
    rw [h1] at h
    cases h2 : digitVal 16 c2 with
    | none => rw [h2] at h; exact Option.noConfusion h
    | some d2 =>
      rw [h2] at h
      cases h3 : hexDecodeList cs with
      | none => rw [h3] at h; exact Option.noConfusion h
      | some bs' =>
        rw [h3] at h
        exact ⟨d1, d2, bs', rfl, rfl, rfl, (Option.some.inj h).symm⟩

/-- Decode-then-encode round trip for the EPC hex field: re-encoding the
decoded bytes reproduces the lowercase form of the input characters. -/
theorem hexEncode_of_hexDecode :
    ∀ (bs : List Nat) (cs : List Char), hexDecodeList cs = some bs →
      (bs.map hexByteChars).flatten = cs.map Char.toLower := by
  intro bs
  induction bs with
  | nil =>
    intro cs h
    match cs with
    | [] => rfl
    | [c] => exact Option.noConfusion h
    | c1 :: c2 :: cs2 =>
      obtain ⟨d1, d2, bs', _, _, _, hcons⟩ := hexDecodeList_cons_cons h
      exact absurd hcons (by simp)
  | cons x bs' ih =>
    intro cs h
    match cs with
    | [] => exact absurd (Option.some.inj h) (by simp)
    | [c] => exact Option.noConfusion h
    | c1 :: c2 :: cs2 =>
      obtain ⟨d1, d2, bs'', h1, h2, h3, hcons⟩ := hexDecodeList_cons_cons h
      obtain ⟨hx, hbs⟩ := List.cons.inj hcons
      subst hx
      subst hbs
      have hd1 : d1 < 16 := digitVal_lt_base h1
      have hd2 : d2 < 16 := digitVal_lt_base h2
      have hdiv : (d1 * 16 + d2) / 16 = d1 := by omega
      have hmod : (d1 * 16 + d2) % 16 = d2 := by omega
      simp only [List.map_cons, List.flatten_cons, hexByteChars, hdiv, hmod,
        digitChar_eq_toLower h1, digitChar_eq_toLower h2, ih cs2 h3, List.cons_append,
        List.nil_append]

/-- Claim C6 as stated is false: `buildTag` accepts the record
["0a", "0", "0", ""], but `InString` prints the control-bits field back as
"a", which is not the original "0a" under case normalization (both are
already lowercase and differ). -/
theorem buildTag_inString_counterexample :
    buildTag ["0a", "0", "0", ""] = some ⟨10, 0, 0, []⟩
      ∧ (Tag.InString ⟨10, 0, 0, []⟩).PCBits = "a"
      ∧ lowerStr "0a" = "0a"
      ∧ (Tag.InString ⟨10, 0, 0, []⟩).PCBits ≠ "0a" :=
  ⟨by decide, by decide, by decide, by decide⟩

/-- Claim C6, amended: for every four-field record `buildTag` accepts whose
three numeric fields carry no redundant leading zero, `InString` reproduces
the original field strings, up to lowercase normalization of the hex
control-bits and EPC fields (the decimal fields are reproduced exactly). -/
theorem buildTag_inString_roundtrip (r0 r1 r2 r3 : String) (t : Tag)
    (h : buildTag [r0, r1, r2, r3] = some t)
    (h0 : noLeadingZero r0) (h1 : noLeadingZero r1) (h2 : noLeadingZero r2) :
    t.InString.PCBits = lowerStr r0
      ∧ t.InString.Length = r1
      ∧ t.InString.EPCLengthBits = r2
      ∧ t.InString.EPC = lowerStr r3 := by
  unfold buildTag at h
  cases hp0 : parseUint r0 16 16 with
  | none => simp only [hp0] at h; exact Option.noConfusion h
  | some pc =>
    simp only [hp0] at h
    cases hp1 : parseUint r1 10 16 with
    | none => simp only [hp1] at h; exact Option.noConfusion h
    | some len =>
      simp only [hp1] at h
      cases hp2 : parseUint r2 10 16 with
      | none => simp only [hp2] at h; exact Option.noConfusion h
      | some epclen =>
        simp only [hp2] at h
        cases hp3 : hexDecodeString r3 with
        | none => simp only [hp3] at h; exact Option.noConfusion h
        | some epc =>
          simp only [hp3] at h
          obtain rfl : Tag.mk pc len epclen epc = t := Option.some.inj h
          refine ⟨?_, ?_, ?_, ?_⟩
          · show formatUint pc 16 = lowerStr r0
            exact formatUint_of_parseUint (by norm_num) hp0 h0
          · show formatUint len 10 = r1
            calc formatUint len 10 = lowerStr r1 :=
                formatUint_of_parseUint (by norm_num) hp1 h1
              _ = r1 := lowerStr_of_parseUint_ten hp1
          · show formatUint epclen 10 = r2
            calc formatUint epclen 10 = lowerStr r2 :=
                formatUint_of_parseUint (by norm_num) hp2 h2
              _ = r2 := lowerStr_of_parseUint_ten hp2
          · show hexEncodeString epc = lowerStr r3
            rw [hexEncodeString, lowerStr]
            exact congrArg String.mk (hexEncode_of_hexDecode epc r3.data hp3)

/-- Witness for the amended claim C6 at a concrete accepted record. -/
theorem buildTag_inString_roundtrip_witness :
    (Tag.InString ⟨26, 150, 96, [0, 255]⟩).PCBits = lowerStr "1A"
      ∧ (Tag.InString ⟨26, 150, 96, [0, 255]⟩).Length = "150"
      ∧ (Tag.InString ⟨26, 150, 96, [0, 255]⟩).EPCLengthBits = "96"
      ∧ (Tag.InString ⟨26, 150, 96, [0, 255]⟩).EPC = lowerStr "00FF" :=
  buildTag_inString_roundtrip "1A" "150" "96" "00FF" ⟨26, 150, 96, [0, 255]⟩
    (by decide) (Or.inr (by decide)) (Or.inr (by decide)) (Or.inr (by decide))

end Golemu
